import Mathlib

/-!
Verification development for the TempMap module (tempmap.js): a Map with
temporary elements. The JavaScript source is shallowly embedded below:
the backing `Map` is an insertion-ordered association list, wall-clock
time is an explicit `now : Int` parameter, JS numbers are `Int`, and the
`undefined | null | number` timeout argument is the inductive `TimeoutArg`.
The scheduled deletion callback itself is asynchronous and outside the
state; entries whose remaining time has elapsed remain physically present
until swept, exactly as in the source between scheduling and firing.
-/

namespace TM

/-- JS values used as keys and payloads: integers and strings. -/
inductive JSVal
| num (n : Int)
| str (s : String)
deriving DecidableEq

/-- Timer metadata stored on an item: `timeout` is the configured duration,
`timestamp` the instant of the last arm or refresh (source lines 488-494). -/
structure Timer where
  timeout : Int
  timestamp : Int
deriving DecidableEq

/-- An entry: a value and an optional timer. -/
structure Item where
  value : JSVal
  timer : Option Timer
deriving DecidableEq

/-- The tri-state `timeout` argument of the mutation API:
absent, the null marker, or a number. -/
inductive TimeoutArg
| undef
| null
| num (n : Int)
deriving DecidableEq

/-- The `timeout ?? 0` coalescing used when inserting a fresh entry
(source line 465). -/
def TimeoutArg.orZero : TimeoutArg → Int
| .num n => n
| _ => 0

/-- The backing store of the JS `Map` superclass: an insertion-ordered
association list with unique keys. -/
abbrev MapState := List (JSVal × Item)

/-- Keys of the store, in insertion order. -/
def keys (m : MapState) : List JSVal := m.map Prod.fst

/-- The key/value pairs yielded by `entries()` (source lines 385-389). -/
def entriesOf (m : MapState) : List (JSVal × JSVal) :=
  m.map fun kv => (kv.1, kv.2.value)

/-- The values yielded by `values()` (source lines 376-380). -/
def valuesOf (m : MapState) : List JSVal := m.map fun kv => kv.2.value

/-- `Map.prototype.get`: the item stored under a key, if any. -/
def mapGet : MapState → JSVal → Option Item
| [], _ => none
| (k2, it) :: rest, k => if k2 = k then some it else mapGet rest k

/-- `Map.prototype.set`: overwrite in place at an existing key, keeping its
position, else append at the end. -/
def mapSet : MapState → JSVal → Item → MapState
| [], k, it => [(k, it)]
| (k2, it2) :: rest, k, it =>
    if k2 = k then (k, it) :: rest else (k2, it2) :: mapSet rest k it

/-- `Map.prototype.delete`: remove the entry stored under a key. -/
def mapDelete : MapState → JSVal → MapState
| [], _ => []
| (k2, it2) :: rest, k =>
    if k2 = k then rest else (k2, it2) :: mapDelete rest k

/-- JS truthiness restricted to the modelled values. -/
def truthy : JSVal → Bool
| .num n => n != 0
| .str s => s != ""

/-- JS string conversion of a value. -/
def jsToString : JSVal → String
| .num n => toString n
| .str s => s

/-- JS ToNumber restricted to the modelled values: integer-literal strings
parse, anything else is NaN (`none`). -/
def toNum : JSVal → Option Int
| .num n => some n
| .str s => if s = "" then some 0 else s.toInt?

/-- The JS relational operator `a > b` on the modelled values: two strings
compare lexicographically by code points (stated on their character lists,
the relation underlying the string order), otherwise numerically (false on
NaN). -/
def jsGT (a b : JSVal) : Bool :=
  match a, b with
  | .str x, .str y => decide (y.data < x.data)
  | _, _ =>
    match toNum a, toNum b with
    | some x, some y => decide (y < x)
    | _, _ => false

/-- The JS strict equality `a === b` on the modelled values. -/
def jsStrictEq (a b : JSVal) : Bool := decide (a = b)

/-- `TempMap.defaultSort` (source lines 503-506):
`Number(a > b) || Number(a === b) - 1`. -/
def defaultSort (a b : JSVal) : Int :=
  if jsGT a b then 1 else (if jsStrictEq a b then 1 else 0) - 1

/-- `getItemTimeout(item, remaining)` (source lines 19-25): the raw
configured timeout when `remaining` is false or there is no timer
(`undefined` without a timer), else the remaining time, `null` once due. -/
def getItemTimeout (it : Item) (remaining : Bool) (now : Int) : TimeoutArg :=
  match it.timer with
  | none => .undef
  | some t =>
    if !remaining then .num t.timeout
    else
      let r := t.timeout - (now - t.timestamp)
      if r > 0 then .num r else .null

/-- `refreshItemTimeout(item)` (source lines 31-39): rearm the scheduled
callback and reset the timestamp to now; no-op without a timer. -/
def refreshItem (it : Item) (now : Int) : Item :=
  match it.timer with
  | some t => { it with timer := some ⟨t.timeout, now⟩ }
  | none => it

/-- An item whose timer exists and whose remaining time has reached or
passed zero: logically absent though still physically present. -/
def isExpired (it : Item) (now : Int) : Bool :=
  getItemTimeout it true now == TimeoutArg.null

/-- `#setTimeout(key, item, timeout)` (source lines 484-498): arm a timer
with the given duration when positive, else delete the timer. The
scheduled callback handle is outside the modelled state. -/
def setTimeoutI (it : Item) (tmo : Int) (now : Int) : Item :=
  if tmo > 0 then { it with timer := some ⟨tmo, now⟩ } else { it with timer := none }

/-- `#setItem(key, item, value, timeout)` (source lines 451-467), the funnel
of every mutator; returns the stored value paired with the new store. On an
existing item: assign the value in place; a numeric timeout cancels the old
callback and rearms (or removes the timer when nonpositive); an absent
timeout refreshes an existing timer; the null marker leaves the timer as
is. On a fresh key: insert with `timeout ?? 0`. -/
def setItem (m : MapState) (k : JSVal) (item : Option Item) (v : JSVal)
    (tmo : TimeoutArg) (now : Int) : JSVal × MapState :=
  match item with
  | some it =>
    let it1 : Item := { it with value := v }
    let it2 : Item :=
      match tmo with
      | .num n => setTimeoutI it1 n now
      | .undef => if it1.timer.isSome then refreshItem it1 now else it1
      | .null => it1
    (v, mapSet m k it2)
  | none => (v, mapSet m k (setTimeoutI ⟨v, none⟩ tmo.orZero now))

/-- `set(key, value, timeout)` (source lines 104-107). -/
def setM (m : MapState) (k v : JSVal) (tmo : TimeoutArg) (now : Int) :
    JSVal × MapState :=
  setItem m k (mapGet m k) v tmo now

/-- `add(key, value, timeout)` (source lines 116-121): `undefined` and no
mutation when the key already exists. -/
def add (m : MapState) (k v : JSVal) (tmo : TimeoutArg) (now : Int) :
    Option JSVal × MapState :=
  match mapGet m k with
  | some _ => (none, m)
  | none =>
    let r := setItem m k none v tmo now
    (some r.1, r.2)

/-- `update(key, value, timeout)` (source lines 130-135): `undefined` and no
mutation when the key does not exist. -/
def upd (m : MapState) (k v : JSVal) (tmo : TimeoutArg) (now : Int) :
    Option JSVal × MapState :=
  match mapGet m k with
  | none => (none, m)
  | some it =>
    let r := setItem m k (some it) v tmo now
    (some r.1, r.2)

/-- `#getItem(key, refreshTimeout)` (source lines 444-449): read the item,
refreshing its timer in place when requested. -/
def getItemM (m : MapState) (k : JSVal) (rt : Bool) (now : Int) :
    Option Item × MapState :=
  match mapGet m k with
  | none => (none, m)
  | some it =>
    if rt then
      let it2 := refreshItem it now
      (some it2, mapSet m k it2)
    else (some it, m)

/-- `ensure(key, defaultValue, timeout, refreshTimeout)` (source lines
83-88); the default-value factory is modelled by the value it produces. -/
def ensureM (m : MapState) (k : JSVal) (dflt : JSVal) (tmo : TimeoutArg)
    (rt : Bool) (now : Int) : JSVal × MapState :=
  match getItemM m k rt now with
  | (some it, m2) => (it.value, m2)
  | (none, m2) => setItem m2 k none dflt tmo now

/-- `delete(key)` (source lines 141-144 and 477-482). -/
def del (m : MapState) (k : JSVal) : Option JSVal × MapState :=
  match mapGet m k with
  | none => (none, m)
  | some it => (some it.value, mapDelete m k)

/-- Positional scan of `at` (source lines 56-61): the entry whose index
matches the target. -/
def atAux : List (JSVal × Item) → Int → Int → Option (JSVal × Item)
| [], _, _ => none
| kv :: rest, target, i =>
    if target = i then some kv else atAux rest target (i + 1)

/-- `at(index, refreshTimeout)` (source lines 52-62): negative indices count
from the end; out of range yields `undefined`. -/
def atM (m : MapState) (index : Int) (rt : Bool) (now : Int) :
    Option (JSVal × JSVal) × MapState :=
  let idx := if index < 0 then (m.length : Int) + index else index
  match atAux m idx 0 with
  | none => (none, m)
  | some kv =>
    if rt then
      let it2 := refreshItem kv.2 now
      (some (kv.1, it2.value), mapSet m kv.1 it2)
    else (some (kv.1, kv.2.value), m)

/-- Loop of `first` (source lines 237-245): `index++ >= count` breaks. -/
def firstAux : List (JSVal × Item) → Int → Int → List (JSVal × JSVal)
| [], _, _ => []
| kv :: rest, i, count =>
    if i ≥ count then [] else (kv.1, kv.2.value) :: firstAux rest (i + 1) count

/-- `first(count)` (source lines 237-245). -/
def firstN (m : MapState) (count : Int) : List (JSVal × JSVal) :=
  firstAux m 0 count

/-- Loop of `last` (source lines 252-260): push once `index++ >= size - count`. -/
def lastAux : List (JSVal × Item) → Int → Int → List (JSVal × JSVal)
| [], _, _ => []
| kv :: rest, i, cutoff =>
    if i ≥ cutoff then (kv.1, kv.2.value) :: lastAux rest (i + 1) cutoff
    else lastAux rest (i + 1) cutoff

/-- `last(count)` (source lines 252-260): the window cutoff is `size - count`. -/
def lastN (m : MapState) (count : Int) : List (JSVal × JSVal) :=
  lastAux m 0 ((m.length : Int) - count)

/-- `#copyItem(key, item, ensure, refreshTimeout)` (source lines 469-475):
transplant the configured timeout (when `refreshTimeout`) or the current
remaining time; skip the entry entirely when the remaining time came back
null; insert through `ensure` or `set`. The default-value closure of the
ensure branch produces the source value. -/
def copyItem (dest : MapState) (k : JSVal) (it : Item) (ens rt : Bool)
    (now : Int) : MapState :=
  match getItemTimeout it (!rt) now with
  | .null => dest
  | tmo =>
    if ens then (ensureM dest k it.value tmo true now).2
    else (setM dest k it.value tmo now).2

/-- Folding `#copyItem` over a list of source entries, the common loop of
every derived-collection operation. -/
def copyAll (dest : MapState) (src : List (JSVal × Item)) (ens rt : Bool)
    (now : Int) : MapState :=
  src.foldl (fun acc kv => copyItem acc kv.1 kv.2 ens rt now) dest

/-- `clone(refreshTimeout)` (source lines 266-272): copy every entry into a
fresh map. -/
def clone (m : MapState) (rt : Bool) (now : Int) : MapState :=
  copyAll [] m false rt now

/-- `filter(fn, refreshTimeout)` (source lines 292-299): copy the entries
passing the test into a fresh map. The predicate receives value and key;
the third `this` argument of the source callback is the fixed receiver. -/
def filterM (m : MapState) (p : JSVal → JSVal → Bool) (rt : Bool)
    (now : Int) : MapState :=
  copyAll [] (m.filter fun kv => p kv.2.value kv.1) false rt now

/-- `partition(fn, refreshTimeout)` (source lines 335-342): the single
source loop routes each entry to the passing or the failing map, so each
map receives exactly its subsequence in order. -/
def partitionM (m : MapState) (p : JSVal → JSVal → Bool) (rt : Bool)
    (now : Int) : MapState × MapState :=
  (copyAll [] (m.filter fun kv => p kv.2.value kv.1) false rt now,
   copyAll [] (m.filter fun kv => !(p kv.2.value kv.1)) false rt now)

/-- `concat(other, refreshTimeout)` (source lines 349-355): reference
equality of receiver and argument is reflected by the `isSelf` flag; when
they differ, copy every entry of the other map into this one with ensure
semantics. -/
def concatM (self other : MapState) (isSelf rt : Bool) (now : Int) :
    MapState :=
  if isSelf then self else copyAll self other true rt now

/-- `difference(other, refreshTimeout)` (source lines 306-315): the two
filtered maps are distinct fresh objects, and the inner `concat` call uses
its default `refreshTimeout = true`. -/
def difference (a b : MapState) (rt : Bool) (now : Int) : MapState :=
  concatM (filterM a (fun _ k => !(mapGet b k).isSome) rt now)
          (filterM b (fun _ k => !(mapGet a k).isSome) rt now)
          false true now

/-- `intersect(other, refreshTimeout)` (source lines 322-328): keep the
entries whose key the other map holds with an identical value; the other
map is read without refreshing. -/
def intersect (a b : MapState) (rt : Bool) (now : Int) : MapState :=
  filterM a
    (fun v k =>
      match mapGet b k with
      | some it => decide (v = it.value)
      | none => false)
    rt now

/-- Stable insertion into a sorted prefix: the new element goes before the
first element it compares below or equal to. -/
def insSorted (le : α → α → Bool) (x : α) : List α → List α
| [] => [x]
| y :: ys => if le x y then x :: y :: ys else y :: insSorted le x ys

/-- Stable sort used to model `Array.prototype.sort` with a comparator:
elements comparing nonpositively keep their relative order. -/
def insSort (le : α → α → Bool) : List α → List α
| [] => []
| x :: xs => insSorted le x (insSort le xs)

/-- `sort(fn, refreshTimeout)` (source lines 362-371): snapshot the entries,
sort them by the comparator (default `defaultSort`), clear the map and
re-insert through `#copyItem`. -/
def sortM (m : MapState)
    (cmp : Option (JSVal → JSVal → JSVal → JSVal → Int)) (rt : Bool)
    (now : Int) : MapState :=
  let c := cmp.getD fun a b _ _ => defaultSort a b
  copyAll []
    (insSort (fun x y => decide (c x.2.value y.2.value x.1 y.1 ≤ 0)) m)
    false rt now

/-- Receiver a `forEach` callback runs with (source line 398): the
`thisArg` when it is given and truthy, else the default undefined. -/
def recvOf : Option JSVal → Option JSVal
| some t => if truthy t then some t else none
| none => none

/-- `forEach(fn, thisArg)` (source lines 396-402): iterate the entries in
insertion order, calling the callback with key, value and the map, state
passing standing in for the callback effects; returns the map itself. -/
def forEachM {σ : Type} (m : MapState)
    (f : Option JSVal → JSVal → JSVal → MapState → σ → σ)
    (thisArg : Option JSVal) (s : σ) : σ × MapState :=
  ((entriesOf m).foldl (fun acc kv => f (recvOf thisArg) kv.1 kv.2 m acc) s, m)

/-- The item a copy materializes for a source item when the destination
does not hold the key: the shape both the ensure and the set branch of
`#copyItem` produce there, or none when the entry is skipped. -/
def transplant (it : Item) (rt : Bool) (now : Int) : Option Item :=
  match getItemTimeout it (!rt) now with
  | .null => none
  | .undef => some ⟨it.value, none⟩
  | .num n => some (setTimeoutI ⟨it.value, none⟩ n now)

theorem mapGet_mapSet_self (m : MapState) (k : JSVal) (it : Item) :
    mapGet (mapSet m k it) k = some it := by
  induction m with
  | nil => simp [mapSet, mapGet]
  | cons hd tl ih =>
    by_cases h : hd.1 = k
    · simp [mapSet, mapGet, h]
    · simp [mapSet, mapGet, h, ih]

theorem keys_cons (k2 : JSVal) (it2 : Item) (tl : MapState) :
    keys ((k2, it2) :: tl) = k2 :: keys tl := rfl

theorem mapGet_mapSet_ne (m : MapState) (k k2 : JSVal) (it : Item)
    (h : k2 ≠ k) : mapGet (mapSet m k it) k2 = mapGet m k2 := by
  have hne : ¬(k = k2) := fun he => h he.symm
  induction m with
  | nil => simp [mapSet, mapGet, hne]
  | cons hd tl ih =>
    obtain ⟨k3, it3⟩ := hd
    by_cases hk : k3 = k
    · simp [mapSet, mapGet, hk, hne]
    · simp [mapSet, mapGet, hk, ih]

theorem mapGet_eq_none_iff (m : MapState) (k : JSVal) :
    mapGet m k = none ↔ k ∉ keys m := by
  induction m with
  | nil => simp [mapGet, keys]
  | cons hd tl ih =>
    obtain ⟨k3, it3⟩ := hd
    by_cases hk : k3 = k
    · simp [mapGet, keys_cons, hk]
    · simp only [mapGet, if_neg hk, keys_cons, List.mem_cons, ih]
      constructor
      · intro hn hh
        rcases hh with h1 | h1
        · exact hk h1.symm
        · exact hn h1
      · intro hn hh
        exact hn (Or.inr hh)

theorem mapGet_some_mem (m : MapState) (k : JSVal) (it : Item)
    (h : mapGet m k = some it) : (k, it) ∈ m := by
  induction m with
  | nil => simp [mapGet] at h
  | cons hd tl ih =>
    obtain ⟨k3, it3⟩ := hd
    by_cases hk : k3 = k
    · simp only [mapGet, if_pos hk] at h
      obtain rfl : it3 = it := Option.some_injective _ h
      exact List.mem_cons.mpr (Or.inl (by rw [hk]))
    · simp only [mapGet, if_neg hk] at h
      exact List.mem_cons_of_mem _ (ih h)

theorem mapGet_of_mem_nodup (m : MapState) (k : JSVal) (it : Item)
    (hnd : (keys m).Nodup) (h : (k, it) ∈ m) : mapGet m k = some it := by
  induction m with
  | nil => simp at h
  | cons hd tl ih =>
    obtain ⟨k3, it3⟩ := hd
    rw [keys_cons] at hnd
    obtain ⟨hn1, hn2⟩ := List.nodup_cons.mp hnd
    rcases List.mem_cons.mp h with h1 | h1
    · injection h1 with he1 he2
      subst he1; subst he2
      simp [mapGet]
    · have hk : k3 ≠ k := by
        intro he
        apply hn1
        rw [he]
        have := List.mem_map_of_mem Prod.fst h1
        simpa [keys] using this
      simp only [mapGet, if_neg hk]
      exact ih hn2 h1

theorem keys_mapSet_mem (m : MapState) (k : JSVal) (it : Item)
    (h : k ∈ keys m) : keys (mapSet m k it) = keys m := by
  induction m with
  | nil => simp [keys] at h
  | cons hd tl ih =>
    obtain ⟨k3, it3⟩ := hd
    rw [keys_cons] at h
    by_cases hk : k3 = k
    · simp [mapSet, keys_cons, hk]
    · have h2 : k ∈ keys tl := by
        rcases List.mem_cons.mp h with h1 | h1
        · exact absurd h1.symm hk
        · exact h1
      simp [mapSet, keys_cons, hk, ih h2]

theorem keys_mapSet_not_mem (m : MapState) (k : JSVal) (it : Item)
    (h : k ∉ keys m) : keys (mapSet m k it) = keys m ++ [k] := by
  induction m with
  | nil => simp [mapSet, keys]
  | cons hd tl ih =>
    obtain ⟨k3, it3⟩ := hd
    rw [keys_cons] at h
    have hk : k3 ≠ k := fun he => h (by rw [he]; exact List.mem_cons_self _ _)
    have h2 : k ∉ keys tl := fun he => h (List.mem_cons_of_mem _ he)
    simp [mapSet, keys_cons, hk, ih h2]

theorem nodup_keys_mapSet (m : MapState) (k : JSVal) (it : Item)
    (h : (keys m).Nodup) : (keys (mapSet m k it)).Nodup := by
  by_cases hm : k ∈ keys m
  · rw [keys_mapSet_mem m k it hm]; exact h
  · rw [keys_mapSet_not_mem m k it hm]
    refine List.nodup_append.mpr ⟨h, List.nodup_singleton k, ?_⟩
    intro a ha hb
    rw [List.mem_singleton] at hb
    exact hm (hb ▸ ha)

theorem keys_mapDelete_sublist (m : MapState) (k : JSVal) :
    (keys (mapDelete m k)).Sublist (keys m) := by
  induction m with
  | nil => simp [mapDelete, keys]
  | cons hd tl ih =>
    obtain ⟨k3, it3⟩ := hd
    by_cases hk : k3 = k
    · simp only [mapDelete, if_pos hk, keys_cons]
      exact List.Sublist.cons _ (List.Sublist.refl _)
    · simp only [mapDelete, if_neg hk, keys_cons]
      exact List.Sublist.cons₂ _ ih

theorem nodup_keys_mapDelete (m : MapState) (k : JSVal)
    (h : (keys m).Nodup) : (keys (mapDelete m k)).Nodup :=
  (keys_mapDelete_sublist m k).nodup h

theorem setItem_snd (m : MapState) (k : JSVal) (item : Option Item)
    (v : JSVal) (tmo : TimeoutArg) (now : Int) :
    ∃ x, (setItem m k item v tmo now).2 = mapSet m k x := by
  cases item with
  | none => exact ⟨_, rfl⟩
  | some it => exact ⟨_, rfl⟩

theorem ensureM_snd (m : MapState) (k : JSVal) (dflt : JSVal)
    (tmo : TimeoutArg) (rt : Bool) (now : Int) :
    (ensureM m k dflt tmo rt now).2 = m ∨
      ∃ x, (ensureM m k dflt tmo rt now).2 = mapSet m k x := by
  unfold ensureM getItemM
  cases hg : mapGet m k with
  | none =>
    simp only [hg]
    exact Or.inr (setItem_snd m k none dflt tmo now)
  | some it =>
    cases rt with
    | true => simp only [hg]; exact Or.inr ⟨_, rfl⟩
    | false => simp only [hg]; exact Or.inl rfl

theorem copyItem_get_ne (d : MapState) (k k2 : JSVal) (it : Item)
    (e r : Bool) (now : Int) (h : k2 ≠ k) :
    mapGet (copyItem d k it e r now) k2 = mapGet d k2 := by
  cases hT : getItemTimeout it (!r) now with
  | null => simp [copyItem, hT]
  | undef =>
    cases e with
    | true =>
      simp only [copyItem, hT]
      rw [if_pos trivial]
      rcases ensureM_snd d k it.value .undef true now with h1 | ⟨x, h1⟩
      · rw [h1]
      · rw [h1, mapGet_mapSet_ne _ _ _ _ h]
    | false =>
      simp only [copyItem, hT]
      rw [if_neg (by simp)]
      unfold setM
      rcases setItem_snd d k (mapGet d k) it.value .undef now with ⟨x, h1⟩
      rw [h1, mapGet_mapSet_ne _ _ _ _ h]
  | num n =>
    cases e with
    | true =>
      simp only [copyItem, hT]
      rw [if_pos trivial]
      rcases ensureM_snd d k it.value (.num n) true now with h1 | ⟨x, h1⟩
      · rw [h1]
      · rw [h1, mapGet_mapSet_ne _ _ _ _ h]
    | false =>
      simp only [copyItem, hT]
      rw [if_neg (by simp)]
      unfold setM
      rcases setItem_snd d k (mapGet d k) it.value (.num n) now with ⟨x, h1⟩
      rw [h1, mapGet_mapSet_ne _ _ _ _ h]

theorem copyItem_expired (d : MapState) (k : JSVal) (it : Item) (e : Bool)
    (now : Int) (h : isExpired it now = true) :
    copyItem d k it e false now = d := by
  have h2 : getItemTimeout it true now = .null := by
    simpa [isExpired] using h
  simp [copyItem, h2]

theorem copyAll_nil (d : MapState) (e r : Bool) (now : Int) :
    copyAll d [] e r now = d := rfl

theorem copyAll_cons (d : MapState) (kv : JSVal × Item)
    (tl : List (JSVal × Item)) (e r : Bool) (now : Int) :
    copyAll d (kv :: tl) e r now =
      copyAll (copyItem d kv.1 kv.2 e r now) tl e r now := rfl

theorem copyAll_get_not_mem (d : MapState) (src : List (JSVal × Item))
    (e r : Bool) (now : Int) (k : JSVal) (h : k ∉ src.map Prod.fst) :
    mapGet (copyAll d src e r now) k = mapGet d k := by
  induction src generalizing d with
  | nil => rfl
  | cons hd tl ih =>
    obtain ⟨k3, it3⟩ := hd
    have hk : k ≠ k3 := fun he => h (by simp [he])
    have h2 : k ∉ tl.map Prod.fst := fun he => h (by simp [he])
    rw [copyAll_cons, ih _ h2, copyItem_get_ne _ _ _ _ _ _ _ hk]

theorem copyAll_get_expired (d : MapState) (src : List (JSVal × Item))
    (e : Bool) (now : Int) (k : JSVal)
    (h : ∀ it2, (k, it2) ∈ src → isExpired it2 now = true) :
    mapGet (copyAll d src e false now) k = mapGet d k := by
  induction src generalizing d with
  | nil => rfl
  | cons hd tl ih =>
    obtain ⟨k3, it3⟩ := hd
    rw [copyAll_cons]
    by_cases hk : k3 = k
    · subst hk
      rw [copyItem_expired _ _ _ _ _ (h it3 (List.mem_cons_self _ _))]
      exact ih d (fun it2 hm => h it2 (List.mem_cons_of_mem _ hm))
    · rw [ih _ (fun it2 hm => h it2 (List.mem_cons_of_mem _ hm)),
        copyItem_get_ne _ _ _ _ _ _ _ (fun he => hk he.symm)]

theorem setTimeoutI_value (it : Item) (n now : Int) :
    (setTimeoutI it n now).value = it.value := by
  unfold setTimeoutI
  split <;> rfl

theorem copyItem_fresh (d : MapState) (k : JSVal) (it : Item) (e r : Bool)
    (now : Int) (h : mapGet d k = none) :
    mapGet (copyItem d k it e r now) k = transplant it r now := by
  cases hT : getItemTimeout it (!r) now with
  | null => simp [copyItem, transplant, hT, h]
  | undef =>
    cases e with
    | true =>
      simp [copyItem, transplant, hT, ensureM, getItemM, h, setItem,
        setTimeoutI, TimeoutArg.orZero, mapGet_mapSet_self]
    | false =>
      simp [copyItem, transplant, hT, setM, h, setItem, setTimeoutI,
        TimeoutArg.orZero, mapGet_mapSet_self]
  | num n =>
    cases e with
    | true =>
      simp [copyItem, transplant, hT, ensureM, getItemM, h, setItem,
        TimeoutArg.orZero, mapGet_mapSet_self]
    | false =>
      simp [copyItem, transplant, hT, setM, h, setItem,
        TimeoutArg.orZero, mapGet_mapSet_self]

theorem copyAll_fresh (d : MapState) (src : List (JSVal × Item)) (e r : Bool)
    (now : Int) (k : JSVal) (it : Item)
    (hnd : (src.map Prod.fst).Nodup) (hm : (k, it) ∈ src)
    (h : mapGet d k = none) :
    mapGet (copyAll d src e r now) k = transplant it r now := by
  induction src generalizing d with
  | nil => simp at hm
  | cons hd tl ih =>
    obtain ⟨k3, it3⟩ := hd
    rw [List.map_cons] at hnd
    obtain ⟨hn1, hn2⟩ := List.nodup_cons.mp hnd
    rw [copyAll_cons]
    rcases List.mem_cons.mp hm with h1 | h1
    · injection h1 with he1 he2
      subst he1; subst he2
      rw [copyAll_get_not_mem _ _ _ _ _ _ hn1]
      exact copyItem_fresh d k it e r now h
    · have hk : k ≠ k3 := by
        intro he
        subst he
        exact hn1 (by simpa using List.mem_map_of_mem Prod.fst h1)
      exact ih _ hn2 h1
        (by rw [copyItem_get_ne _ _ _ _ _ _ _ hk]; exact h)

theorem getItemTimeout_false_ne_null (it : Item) (now : Int) :
    getItemTimeout it false now ≠ .null := by
  unfold getItemTimeout
  cases it.timer <;> simp

theorem transplant_value (it : Item) (rt : Bool) (now : Int) (j : Item)
    (h : transplant it rt now = some j) : j.value = it.value := by
  unfold transplant at h
  cases hT : getItemTimeout it (!rt) now with
  | null => rw [hT] at h; simp at h
  | undef => rw [hT] at h; injection h with h2; rw [← h2]
  | num n =>
    rw [hT] at h
    injection h with h2
    rw [← h2, setTimeoutI_value]

theorem transplant_true_isSome (it : Item) (now : Int) :
    (transplant it true now).isSome = true := by
  unfold transplant
  have hne := getItemTimeout_false_ne_null it now
  cases hT : getItemTimeout it (!true) now with
  | null => exact absurd (by simpa using hT) hne
  | undef => simp [hT]
  | num n => simp [hT]

theorem refreshItem_value (it : Item) (now : Int) :
    (refreshItem it now).value = it.value := by
  cases ht : it.timer <;> simp [refreshItem, ht]

theorem refreshItem_duration (it : Item) (now : Int) :
    (refreshItem it now).timer.map Timer.timeout = it.timer.map Timer.timeout := by
  cases ht : it.timer <;> simp [refreshItem, ht]

theorem refreshItem_idem (it : Item) (now : Int) :
    refreshItem (refreshItem it now) now = refreshItem it now := by
  cases ht : it.timer <;> simp [refreshItem, ht]

theorem setItem_fst (m : MapState) (k : JSVal) (item : Option Item)
    (v : JSVal) (tmo : TimeoutArg) (now : Int) :
    (setItem m k item v tmo now).1 = v := by
  cases item <;> rfl

theorem setItem_some_value (m : MapState) (k : JSVal) (it : Item)
    (v : JSVal) (tmo : TimeoutArg) (now : Int) :
    ∃ x, (setItem m k (some it) v tmo now).2 = mapSet m k x ∧ x.value = v := by
  cases tmo with
  | num n => exact ⟨_, rfl, setTimeoutI_value _ _ _⟩
  | null => exact ⟨_, rfl, rfl⟩
  | undef =>
    refine ⟨_, rfl, ?_⟩
    cases ht : it.timer <;> simp [refreshItem, ht]

theorem lastAux_all (l : List (JSVal × Item)) (i cutoff : Int)
    (h : cutoff ≤ i) :
    lastAux l i cutoff = l.map fun kv => (kv.1, kv.2.value) := by
  induction l generalizing i with
  | nil => rfl
  | cons hd tl ih =>
    simp only [lastAux, if_pos (show i ≥ cutoff from h), List.map_cons]
    rw [ih (i + 1) (by omega)]

theorem atAux_out_of_range (l : List (JSVal × Item)) (target i : Int)
    (h : target < i ∨ (l.length : Int) + i ≤ target) :
    atAux l target i = none := by
  induction l generalizing i with
  | nil => rfl
  | cons hd tl ih =>
    have hlen : ((hd :: tl).length : Int) = (tl.length : Int) + 1 := by
      simp
    have hne : ¬(target = i) := by
      rcases h with h | h
      · omega
      · rw [hlen] at h; omega
    simp only [atAux, if_neg hne]
    apply ih
    rcases h with h | h
    · left; omega
    · right; rw [hlen] at h; omega

theorem foldl_append_map {α β : Type} (l : List α) (g : α → β)
    (acc : List β) :
    l.foldl (fun a x => a ++ [g x]) acc = acc ++ l.map g := by
  induction l generalizing acc with
  | nil => simp
  | cons hd tl ih => simp [ih]

theorem mem_insSorted (le : α → α → Bool) (x y : α) (l : List α) :
    y ∈ insSorted le x l ↔ y = x ∨ y ∈ l := by
  induction l with
  | nil => simp [insSorted]
  | cons hd tl ih =>
    by_cases hc : le x hd
    · simp [insSorted, hc, List.mem_cons]
    · simp only [insSorted, if_neg hc, List.mem_cons, ih]
      tauto

theorem mem_insSort (le : α → α → Bool) (y : α) (l : List α) :
    y ∈ insSort le l ↔ y ∈ l := by
  induction l with
  | nil => simp [insSort]
  | cons hd tl ih =>
    simp only [insSort, mem_insSorted, List.mem_cons, ih]

theorem filterM_get_none (m : MapState) (p : JSVal → JSVal → Bool)
    (rt : Bool) (now : Int) (k : JSVal)
    (h : ∀ it2, (k, it2) ∈ m → p it2.value k = false) :
    mapGet (filterM m p rt now) k = none := by
  unfold filterM
  rw [copyAll_get_not_mem]
  · rfl
  · intro hmem
    obtain ⟨a, hin, he⟩ := List.mem_map.mp hmem
    obtain ⟨k4, it4⟩ := a
    obtain ⟨hin2, hp⟩ := List.mem_filter.mp hin
    have hk : k4 = k := he
    subst hk
    rw [h it4 hin2] at hp
    simp at hp

theorem filterM_get_some (m : MapState) (p : JSVal → JSVal → Bool)
    (rt : Bool) (now : Int) (k : JSVal) (it : Item)
    (hnd : (keys m).Nodup) (hm : (k, it) ∈ m) (hp : p it.value k = true) :
    mapGet (filterM m p rt now) k = transplant it rt now := by
  unfold filterM
  apply copyAll_fresh
  · exact ((List.filter_sublist _).map Prod.fst).nodup hnd
  · exact List.mem_filter.mpr ⟨hm, by simpa using hp⟩
  · rfl

theorem copyItem_ensure_get_some (d : MapState) (k : JSVal) (j : Item)
    (rt : Bool) (now : Int) (x : Item) (hx : mapGet d k = some x) :
    copyItem d k j true rt now = d ∨
      mapGet (copyItem d k j true rt now) k = some (refreshItem x now) := by
  cases hT : getItemTimeout j (!rt) now with
  | null => left; simp [copyItem, hT]
  | undef =>
    right
    simp only [copyItem, hT]
    rw [if_pos trivial]
    unfold ensureM getItemM
    simp only [hx]
    exact mapGet_mapSet_self d k _
  | num n =>
    right
    simp only [copyItem, hT]
    rw [if_pos trivial]
    unfold ensureM getItemM
    simp only [hx]
    exact mapGet_mapSet_self d k _

theorem copyAll_ensure_frame (src : List (JSVal × Item)) (d : MapState)
    (k : JSVal) (it : Item) (rt : Bool) (now : Int)
    (h : mapGet d k = some it ∨ mapGet d k = some (refreshItem it now)) :
    mapGet (copyAll d src true rt now) k = some it ∨
      mapGet (copyAll d src true rt now) k = some (refreshItem it now) := by
  induction src generalizing d with
  | nil => exact h
  | cons hd tl ih =>
    obtain ⟨k3, j⟩ := hd
    rw [copyAll_cons]
    by_cases hk : k3 = k
    · subst hk
      rcases h with h | h
      · rcases copyItem_ensure_get_some d k3 j rt now it h with h2 | h2
        · exact ih _ (by rw [h2]; exact Or.inl h)
        · exact ih _ (Or.inr h2)
      · rcases copyItem_ensure_get_some d k3 j rt now (refreshItem it now) h
          with h2 | h2
        · exact ih _ (by rw [h2]; exact Or.inr h)
        · rw [refreshItem_idem] at h2
          exact ih _ (Or.inr h2)
    · have hk2 : k ≠ k3 := fun he => hk he.symm
      exact ih _ (by rw [copyItem_get_ne _ _ _ _ _ _ _ hk2]; exact h)

theorem mem_keys_of_get_some (m : MapState) (k : JSVal) (it : Item)
    (h : mapGet m k = some it) : k ∈ keys m := by
  by_contra hkm
  have h2 := (mapGet_eq_none_iff m k).mpr hkm
  rw [h] at h2
  exact Option.noConfusion h2

theorem not_mem_of_get_none (m : MapState) (k : JSVal)
    (h : mapGet m k = none) : ∀ it2, (k, it2) ∈ m → False := by
  intro it2 hm2
  exact (mapGet_eq_none_iff m k).mp h
    (by simpa [keys] using List.mem_map_of_mem Prod.fst hm2)

theorem entriesOf_eq_zip (m : MapState) :
    entriesOf m = (keys m).zip (valuesOf m) := by
  induction m with
  | nil => rfl
  | cons hd tl ih =>
    simp only [entriesOf, keys, valuesOf, List.map_cons, List.zip_cons_cons]
    have ih2 : List.map (fun kv : JSVal × Item => (kv.1, kv.2.value)) tl =
        (List.map Prod.fst tl).zip
          (List.map (fun kv : JSVal × Item => kv.2.value) tl) := ih
    rw [ih2]

theorem copyItem_shape (d : MapState) (k : JSVal) (it : Item) (e r : Bool)
    (now : Int) :
    copyItem d k it e r now = d ∨
      ∃ x, copyItem d k it e r now = mapSet d k x := by
  cases hT : getItemTimeout it (!r) now with
  | null => left; simp [copyItem, hT]
  | undef =>
    cases e with
    | true =>
      simp only [copyItem, hT]
      rw [if_pos trivial]
      rcases ensureM_snd d k it.value .undef true now with h1 | ⟨x, h1⟩
      · exact Or.inl h1
      · exact Or.inr ⟨x, h1⟩
    | false =>
      simp only [copyItem, hT]
      rw [if_neg (by simp)]
      unfold setM
      exact Or.inr (setItem_snd d k (mapGet d k) it.value .undef now)
  | num n =>
    cases e with
    | true =>
      simp only [copyItem, hT]
      rw [if_pos trivial]
      rcases ensureM_snd d k it.value (.num n) true now with h1 | ⟨x, h1⟩
      · exact Or.inl h1
      · exact Or.inr ⟨x, h1⟩
    | false =>
      simp only [copyItem, hT]
      rw [if_neg (by simp)]
      unfold setM
      exact Or.inr (setItem_snd d k (mapGet d k) it.value (.num n) now)

theorem nodup_keys_copyAll (src : List (JSVal × Item)) (d : MapState)
    (e r : Bool) (now : Int) (h : (keys d).Nodup) :
    (keys (copyAll d src e r now)).Nodup := by
  induction src generalizing d with
  | nil => exact h
  | cons hd tl ih =>
    rw [copyAll_cons]
    apply ih
    rcases copyItem_shape d hd.1 hd.2 e r now with h1 | ⟨x, h1⟩
    · rw [h1]; exact h
    · rw [h1]; exact nodup_keys_mapSet d hd.1 x h

/-- C2: on a key whose entry already exists, `set` with the timeout omitted
resets the start instant of an existing timer to now keeping its duration,
and creates no timer when there is none; with the null marker it leaves the
timer fully unchanged; with a positive number it arms a fresh timer of that
duration starting now, replacing the previous one; with a nonpositive
number it removes the timer, making the entry permanent; and in every case
the given value is stored in place under the key and returned. -/
theorem claim_C2 (m : MapState) (k v : JSVal) (it : Item) (now n : Int)
    (h : mapGet m k = some it) :
    (setM m k v .undef now =
      (v, mapSet m k ⟨v, it.timer.map fun t => ⟨t.timeout, now⟩⟩)) ∧
    (setM m k v .null now = (v, mapSet m k ⟨v, it.timer⟩)) ∧
    (0 < n → setM m k v (.num n) now = (v, mapSet m k ⟨v, some ⟨n, now⟩⟩)) ∧
    (n ≤ 0 → setM m k v (.num n) now = (v, mapSet m k ⟨v, none⟩)) ∧
    (∀ tmo, (setM m k v tmo now).1 = v ∧
      (mapGet (setM m k v tmo now).2 k).map Item.value = some v) := by
  refine ⟨?_, ?_, ?_, ?_, ?_⟩
  · cases ht : it.timer with
    | none => simp [setM, h, setItem, refreshItem, ht]
    | some t => simp [setM, h, setItem, refreshItem, ht]
  · simp [setM, h, setItem]
  · intro hn
    simp [setM, h, setItem, setTimeoutI, hn]
  · intro hn
    have hn2 : ¬(n > 0) := by omega
    simp [setM, h, setItem, setTimeoutI, hn2]
  · intro tmo
    constructor
    · rw [setM, setItem_fst]
    · rw [setM, h]
      obtain ⟨x, hx, hxv⟩ := setItem_some_value m k it v tmo now
      rw [hx, mapGet_mapSet_self]
      simp [hxv]

theorem claim_C2_witness :
    setM [(JSVal.num 0, ⟨JSVal.num 1, some ⟨10, 0⟩⟩)] (JSVal.num 0)
        (JSVal.num 7) .undef 3 =
      (JSVal.num 7,
        mapSet [(JSVal.num 0, ⟨JSVal.num 1, some ⟨10, 0⟩⟩)] (JSVal.num 0)
          ⟨JSVal.num 7, some ⟨10, 3⟩⟩) :=
  (claim_C2 [(JSVal.num 0, ⟨JSVal.num 1, some ⟨10, 0⟩⟩)] (JSVal.num 0)
    (JSVal.num 7) ⟨JSVal.num 1, some ⟨10, 0⟩⟩ 3 1 (by decide)).1

/-- C3: for an entry whose timer has positive remaining time r, clone with
refreshTimeout false produces an entry with a timer of duration r armed at
the copy instant, while clone with refreshTimeout true transplants the full
configured duration armed at the copy instant. -/
theorem claim_C3 (m : MapState) (k v : JSVal) (d ts now : Int)
    (hnd : (keys m).Nodup) (hget : mapGet m k = some ⟨v, some ⟨d, ts⟩⟩)
    (hd0 : 0 < d) (hr : 0 < d - (now - ts)) :
    mapGet (clone m false now) k =
      some ⟨v, some ⟨d - (now - ts), now⟩⟩ ∧
    mapGet (clone m true now) k = some ⟨v, some ⟨d, now⟩⟩ := by
  have hm := mapGet_some_mem m k _ hget
  have hnd2 : (m.map Prod.fst).Nodup := hnd
  constructor
  · rw [clone, copyAll_fresh [] m false false now k _ hnd2 hm rfl]
    simp [transplant, getItemTimeout, setTimeoutI, hr]
  · rw [clone, copyAll_fresh [] m false true now k _ hnd2 hm rfl]
    simp [transplant, getItemTimeout, setTimeoutI, hd0]

theorem claim_C3_witness :
    mapGet (clone [(JSVal.num 0, ⟨JSVal.num 1, some ⟨10, 2⟩⟩)] false 5)
        (JSVal.num 0) =
      some ⟨JSVal.num 1, some ⟨10 - (5 - 2), 5⟩⟩ ∧
    mapGet (clone [(JSVal.num 0, ⟨JSVal.num 1, some ⟨10, 2⟩⟩)] true 5)
        (JSVal.num 0) =
      some ⟨JSVal.num 1, some ⟨10, 5⟩⟩ :=
  claim_C3 [(JSVal.num 0, ⟨JSVal.num 1, some ⟨10, 2⟩⟩)] (JSVal.num 0)
    (JSVal.num 1) 10 2 5 (by decide) (by decide) (by decide) (by decide)

/-- C5: the default comparator applies the raw JS relational operator to
the values, so on the numbers 10 and 9 it returns 1 (numeric order) even
though the string conversions compare the other way, contradicting its own
documentation of code-point order on string conversions; on actual string
values it does compare as strings. -/
theorem claim_C5 :
    defaultSort (JSVal.num 10) (JSVal.num 9) = 1 ∧
    (jsToString (JSVal.num 10)).data < (jsToString (JSVal.num 9)).data ∧
    defaultSort (JSVal.str "10") (JSVal.str "9") = -1 := by
  exact ⟨by decide, by decide, by decide⟩

/-- C8: add on an existing key returns the absent sentinel and leaves the
store unchanged; update on a missing key returns the absent sentinel and
leaves the store unchanged; positional access with an index out of range
after negative adjustment returns the absent sentinel; all are total
functions, so no exception is raised. -/
theorem claim_C8 (m : MapState) (k v : JSVal) (tmo : TimeoutArg)
    (now index : Int) (rt : Bool) :
    ((mapGet m k).isSome = true → add m k v tmo now = (none, m)) ∧
    (mapGet m k = none → upd m k v tmo now = (none, m)) ∧
    (((if index < 0 then (m.length : Int) + index else index) < 0 ∨
        (m.length : Int) ≤
          (if index < 0 then (m.length : Int) + index else index)) →
      (atM m index rt now).1 = none) := by
  refine ⟨?_, ?_, ?_⟩
  · intro h
    rw [Option.isSome_iff_exists] at h
    obtain ⟨it, hit⟩ := h
    simp [add, hit]
  · intro h
    simp [upd, h]
  · intro h
    have h2 : atAux m (if index < 0 then (m.length : Int) + index else index)
        0 = none := by
      apply atAux_out_of_range
      rcases h with h | h
      · left; omega
      · right; omega
    simp [atM, h2]

theorem claim_C8_witness :
    add [(JSVal.num 0, ⟨JSVal.num 1, none⟩)] (JSVal.num 0) (JSVal.num 5)
        .undef 0 =
      (none, [(JSVal.num 0, ⟨JSVal.num 1, none⟩)]) ∧
    upd [(JSVal.num 0, ⟨JSVal.num 1, none⟩)] (JSVal.num 9) (JSVal.num 5)
        .undef 0 =
      (none, [(JSVal.num 0, ⟨JSVal.num 1, none⟩)]) ∧
    (atM [(JSVal.num 0, ⟨JSVal.num 1, none⟩)] 7 true 0).1 = none :=
  ⟨(claim_C8 [(JSVal.num 0, ⟨JSVal.num 1, none⟩)] (JSVal.num 0) (JSVal.num 5)
      .undef 0 7 true).1 (by decide),
   (claim_C8 [(JSVal.num 0, ⟨JSVal.num 1, none⟩)] (JSVal.num 9) (JSVal.num 5)
      .undef 0 7 true).2.1 (by decide),
   (claim_C8 [(JSVal.num 0, ⟨JSVal.num 1, none⟩)] (JSVal.num 9) (JSVal.num 5)
      .undef 0 7 true).2.2 (by decide)⟩

/-- C9: when the requested count exceeds the size of the store, last
returns every entry as key/value pairs in insertion order, clamping the
count silently instead of raising or returning a sentinel. -/
theorem claim_C9 (m : MapState) (count : Int)
    (h : (m.length : Int) < count) : lastN m count = entriesOf m := by
  unfold lastN entriesOf
  exact lastAux_all m 0 _ (by omega)

theorem claim_C9_witness :
    lastN [(JSVal.num 0, ⟨JSVal.num 1, none⟩),
        (JSVal.num 1, ⟨JSVal.num 2, none⟩)] 5 =
      entriesOf [(JSVal.num 0, ⟨JSVal.num 1, none⟩),
        (JSVal.num 1, ⟨JSVal.num 2, none⟩)] :=
  claim_C9 [(JSVal.num 0, ⟨JSVal.num 1, none⟩),
    (JSVal.num 1, ⟨JSVal.num 2, none⟩)] 5 (by decide)

theorem transplant_true_map_value (it : Item) (now : Int) :
    (transplant it true now).map Item.value = some it.value := by
  cases htp : transplant it true now with
  | none =>
    have h2 := transplant_true_isSome it now
    rw [htp] at h2
    simp at h2
  | some j => simp [transplant_value it true now j htp]

/-- C6: on the concrete timer-free containers A and B the intersection
yields exactly the shared entry and the difference exactly the two
one-sided entries; and in general, at the default refreshTimeout, the
difference holds exactly the entries whose key lies in exactly one of the
two stores, and the intersection exactly the entries of the receiver whose
key the other store holds with an identical value. -/
theorem claim_C6 (a b : MapState) (k : JSVal) (now : Int)
    (hla : (keys a).Nodup) (hlb : (keys b).Nodup) :
    entriesOf (intersect
        [(JSVal.str "x", ⟨JSVal.num 1, none⟩),
          (JSVal.str "y", ⟨JSVal.num 2, none⟩)]
        [(JSVal.str "y", ⟨JSVal.num 2, none⟩),
          (JSVal.str "z", ⟨JSVal.num 3, none⟩)] true 0) =
      [(JSVal.str "y", JSVal.num 2)] ∧
    entriesOf (difference
        [(JSVal.str "x", ⟨JSVal.num 1, none⟩),
          (JSVal.str "y", ⟨JSVal.num 2, none⟩)]
        [(JSVal.str "y", ⟨JSVal.num 2, none⟩),
          (JSVal.str "z", ⟨JSVal.num 3, none⟩)] true 0) =
      [(JSVal.str "x", JSVal.num 1), (JSVal.str "z", JSVal.num 3)] ∧
    (∀ ita, mapGet a k = some ita → mapGet b k = none →
      (mapGet (difference a b true now) k).map Item.value =
        some ita.value) ∧
    (∀ itb, mapGet a k = none → mapGet b k = some itb →
      (mapGet (difference a b true now) k).map Item.value =
        some itb.value) ∧
    ((mapGet a k).isSome = true → (mapGet b k).isSome = true →
      mapGet (difference a b true now) k = none) ∧
    (mapGet a k = none → mapGet b k = none →
      mapGet (difference a b true now) k = none) ∧
    (∀ ita itb, mapGet a k = some ita → mapGet b k = some itb →
      ita.value = itb.value →
      (mapGet (intersect a b true now) k).map Item.value =
        some ita.value) ∧
    (∀ ita itb, mapGet a k = some ita → mapGet b k = some itb →
      ¬(ita.value = itb.value) →
      mapGet (intersect a b true now) k = none) ∧
    (mapGet a k = none → mapGet (intersect a b true now) k = none) ∧
    (mapGet b k = none → mapGet (intersect a b true now) k = none) := by
  have hdiff : difference a b true now =
      copyAll (filterM a (fun _ k2 => !(mapGet b k2).isSome) true now)
        (filterM b (fun _ k2 => !(mapGet a k2).isSome) true now)
        true true now := rfl
  have hint : intersect a b true now =
      filterM a
        (fun v k2 =>
          match mapGet b k2 with
          | some it3 => decide (v = it3.value)
          | none => false)
        true now := rfl
  refine ⟨by decide, by decide, ?_, ?_, ?_, ?_, ?_, ?_, ?_, ?_⟩
  · intro ita ha hb
    have hmem := mapGet_some_mem a k ita ha
    have hfa : mapGet
        (filterM a (fun _ k2 => !(mapGet b k2).isSome) true now) k =
        transplant ita true now :=
      filterM_get_some a _ true now k ita hla hmem (by simp [hb])
    have hfo : mapGet
        (filterM b (fun _ k2 => !(mapGet a k2).isSome) true now) k =
        none :=
      filterM_get_none b _ true now k (fun it2 _ => by simp [ha])
    rw [hdiff,
      copyAll_get_not_mem _ _ _ _ _ _ ((mapGet_eq_none_iff _ k).mp hfo),
      hfa]
    exact transplant_true_map_value ita now
  · intro itb ha hb
    have hfa : mapGet
        (filterM a (fun _ k2 => !(mapGet b k2).isSome) true now) k =
        none :=
      filterM_get_none a _ true now k (fun it2 _ => by simp [hb])
    have hmemb := mapGet_some_mem b k itb hb
    have hfo : mapGet
        (filterM b (fun _ k2 => !(mapGet a k2).isSome) true now) k =
        transplant itb true now :=
      filterM_get_some b _ true now k itb hlb hmemb (by simp [ha])
    obtain ⟨j, hj⟩ : ∃ j, transplant itb true now = some j := by
      have h2 := transplant_true_isSome itb now
      cases htp : transplant itb true now with
      | none => rw [htp] at h2; simp at h2
      | some j => exact ⟨j, rfl⟩
    have hmemfo : (k, j) ∈
        filterM b (fun _ k2 => !(mapGet a k2).isSome) true now :=
      mapGet_some_mem _ _ _ (by rw [hfo, hj])
    have hndfo : (keys
        (filterM b (fun _ k2 => !(mapGet a k2).isSome) true now)).Nodup := by
      rw [filterM]
      exact nodup_keys_copyAll _ [] false true now (by simp [keys])
    rw [hdiff, copyAll_fresh _ _ _ _ _ _ _ hndfo hmemfo hfa,
      transplant_true_map_value, transplant_value itb true now j hj]
  · intro ha hb
    have hfa : mapGet
        (filterM a (fun _ k2 => !(mapGet b k2).isSome) true now) k =
        none :=
      filterM_get_none a _ true now k (fun it2 _ => by simp [hb])
    have hfo : mapGet
        (filterM b (fun _ k2 => !(mapGet a k2).isSome) true now) k =
        none :=
      filterM_get_none b _ true now k (fun it2 _ => by simp [ha])
    rw [hdiff,
      copyAll_get_not_mem _ _ _ _ _ _ ((mapGet_eq_none_iff _ k).mp hfo)]
    exact hfa
  · intro ha hb
    have hfa : mapGet
        (filterM a (fun _ k2 => !(mapGet b k2).isSome) true now) k =
        none :=
      filterM_get_none a _ true now k
        (fun it2 hm2 => (not_mem_of_get_none a k ha it2 hm2).elim)
    have hfo : mapGet
        (filterM b (fun _ k2 => !(mapGet a k2).isSome) true now) k =
        none :=
      filterM_get_none b _ true now k
        (fun it2 hm2 => (not_mem_of_get_none b k hb it2 hm2).elim)
    rw [hdiff,
      copyAll_get_not_mem _ _ _ _ _ _ ((mapGet_eq_none_iff _ k).mp hfo)]
    exact hfa
  · intro ita itb ha hb heq
    have hmem := mapGet_some_mem a k ita ha
    rw [hint, filterM_get_some a _ true now k ita hla hmem
      (by simp [hb, heq])]
    exact transplant_true_map_value ita now
  · intro ita itb ha hb hne
    rw [hint]
    apply filterM_get_none
    intro it2 hm2
    have h3 := mapGet_of_mem_nodup a k it2 hla hm2
    rw [ha] at h3
    injection h3 with h4
    subst h4
    simp [hb, hne]
  · intro ha
    rw [hint]
    exact filterM_get_none a _ true now k
      (fun it2 hm2 => (not_mem_of_get_none a k ha it2 hm2).elim)
  · intro hb
    rw [hint]
    apply filterM_get_none
    intro it2 _
    simp [hb]

theorem claim_C6_witness :
    (mapGet (difference
        [(JSVal.str "x", ⟨JSVal.num 1, none⟩),
          (JSVal.str "y", ⟨JSVal.num 2, none⟩)]
        [(JSVal.str "y", ⟨JSVal.num 2, none⟩),
          (JSVal.str "z", ⟨JSVal.num 3, none⟩)] true 0)
      (JSVal.str "x")).map Item.value = some (JSVal.num 1) :=
  (claim_C6
    [(JSVal.str "x", ⟨JSVal.num 1, none⟩),
      (JSVal.str "y", ⟨JSVal.num 2, none⟩)]
    [(JSVal.str "y", ⟨JSVal.num 2, none⟩),
      (JSVal.str "z", ⟨JSVal.num 3, none⟩)]
    (JSVal.str "x") 0 (by decide) (by decide)).2.2.1
    ⟨JSVal.num 1, none⟩ (by decide) (by decide)

/-- C1 counterexample: with refreshTimeout true the copy primitive reads
the raw configured timeout and never consults the remaining time, so clone
with refreshTimeout true materializes an entry whose remaining time has
already passed, rearming it with the full configured duration. -/
theorem claim_C1_cex :
    isExpired ⟨JSVal.num 1, some ⟨5, 0⟩⟩ 10 = true ∧
    mapGet (clone [(JSVal.num 0, ⟨JSVal.num 1, some ⟨5, 0⟩⟩)] true 10)
        (JSVal.num 0) =
      some ⟨JSVal.num 1, some ⟨5, 10⟩⟩ := by decide

/-- C1 amended: with refreshTimeout false, every derived-collection copy
skips a source entry whose remaining time has reached or passed zero: the
entry appears in the destination of none of clone, filter, either
partition output, difference, intersect and the store rebuilt by sort, and
concat leaves its destination unchanged at that key. -/
theorem claim_C1 (m o dst : MapState) (k : JSVal) (it : Item) (now : Int)
    (p : JSVal → JSVal → Bool)
    (cmp : Option (JSVal → JSVal → JSVal → JSVal → Int))
    (hnd : (keys m).Nodup) (hget : mapGet m k = some it)
    (hexp : isExpired it now = true) :
    mapGet (clone m false now) k = none ∧
    mapGet (filterM m p false now) k = none ∧
    mapGet (partitionM m p false now).1 k = none ∧
    mapGet (partitionM m p false now).2 k = none ∧
    mapGet (difference m o false now) k = none ∧
    mapGet (intersect m o false now) k = none ∧
    mapGet (concatM dst m false false now) k = mapGet dst k ∧
    mapGet (sortM m cmp false now) k = none := by
  have hocc : ∀ it2, (k, it2) ∈ m → isExpired it2 now = true := by
    intro it2 hm2
    have h3 := mapGet_of_mem_nodup m k it2 hnd hm2
    rw [hget] at h3
    injection h3 with h4
    rw [← h4]
    exact hexp
  have hoccF : ∀ (q : JSVal × Item → Bool) it2,
      (k, it2) ∈ m.filter q → isExpired it2 now = true :=
    fun q it2 hm2 => hocc it2 (List.mem_of_mem_filter hm2)
  refine ⟨?_, ?_, ?_, ?_, ?_, ?_, ?_, ?_⟩
  · rw [clone, copyAll_get_expired _ _ _ _ _ hocc]; rfl
  · rw [filterM, copyAll_get_expired _ _ _ _ _ (hoccF _)]; rfl
  · have h1 : (partitionM m p false now).1 =
        copyAll [] (m.filter fun kv => p kv.2.value kv.1) false false now :=
      rfl
    rw [h1, copyAll_get_expired _ _ _ _ _ (hoccF _)]; rfl
  · have h1 : (partitionM m p false now).2 =
        copyAll [] (m.filter fun kv => !(p kv.2.value kv.1)) false false
          now := rfl
    rw [h1, copyAll_get_expired _ _ _ _ _ (hoccF _)]; rfl
  · have hfa : mapGet
        (filterM m (fun _ k2 => !(mapGet o k2).isSome) false now) k =
        none := by
      rw [filterM, copyAll_get_expired _ _ _ _ _ (hoccF _)]; rfl
    have hfo : mapGet
        (filterM o (fun _ k2 => !(mapGet m k2).isSome) false now) k =
        none := by
      apply filterM_get_none
      intro it2 _
      simp [hget]
    have hnotin : k ∉ (filterM o (fun _ k2 => !(mapGet m k2).isSome) false
        now).map Prod.fst := (mapGet_eq_none_iff _ k).mp hfo
    have hd2 : difference m o false now =
        copyAll (filterM m (fun _ k2 => !(mapGet o k2).isSome) false now)
          (filterM o (fun _ k2 => !(mapGet m k2).isSome) false now)
          true true now := rfl
    rw [hd2, copyAll_get_not_mem _ _ _ _ _ _ hnotin]
    exact hfa
  · have h1 : intersect m o false now =
        filterM m
          (fun v k2 =>
            match mapGet o k2 with
            | some it3 => decide (v = it3.value)
            | none => false)
          false now := rfl
    rw [h1, filterM, copyAll_get_expired _ _ _ _ _ (hoccF _)]; rfl
  · have h1 : concatM dst m false false now =
        copyAll dst m true false now := rfl
    rw [h1, copyAll_get_expired _ _ _ _ _ hocc]
  · have h1 : sortM m cmp false now =
        copyAll []
          (insSort
            (fun x y => decide ((cmp.getD fun a b _ _ => defaultSort a b)
              x.2.value y.2.value x.1 y.1 ≤ 0)) m)
          false false now := rfl
    rw [h1, copyAll_get_expired _ _ _ _ _
      (fun it2 hm2 => hocc it2 ((mem_insSort _ _ _).mp hm2))]
    rfl

theorem claim_C1_witness :
    mapGet (clone [(JSVal.num 0, ⟨JSVal.num 1, some ⟨5, 0⟩⟩)] false 10)
        (JSVal.num 0) = none ∧
    mapGet (filterM [(JSVal.num 0, ⟨JSVal.num 1, some ⟨5, 0⟩⟩)]
        (fun _ _ => true) false 10) (JSVal.num 0) = none ∧
    mapGet (partitionM [(JSVal.num 0, ⟨JSVal.num 1, some ⟨5, 0⟩⟩)]
        (fun _ _ => true) false 10).1 (JSVal.num 0) = none ∧
    mapGet (partitionM [(JSVal.num 0, ⟨JSVal.num 1, some ⟨5, 0⟩⟩)]
        (fun _ _ => true) false 10).2 (JSVal.num 0) = none ∧
    mapGet (difference [(JSVal.num 0, ⟨JSVal.num 1, some ⟨5, 0⟩⟩)] [] false
        10) (JSVal.num 0) = none ∧
    mapGet (intersect [(JSVal.num 0, ⟨JSVal.num 1, some ⟨5, 0⟩⟩)] [] false
        10) (JSVal.num 0) = none ∧
    mapGet (concatM [] [(JSVal.num 0, ⟨JSVal.num 1, some ⟨5, 0⟩⟩)] false
        false 10) (JSVal.num 0) = mapGet [] (JSVal.num 0) ∧
    mapGet (sortM [(JSVal.num 0, ⟨JSVal.num 1, some ⟨5, 0⟩⟩)] none false
        10) (JSVal.num 0) = none :=
  claim_C1 [(JSVal.num 0, ⟨JSVal.num 1, some ⟨5, 0⟩⟩)] [] []
    (JSVal.num 0) ⟨JSVal.num 1, some ⟨5, 0⟩⟩ 10 (fun _ _ => true) none
    (by decide) (by decide) (by decide)

/-- C10: forEach returns the container itself, invokes its callback exactly
once per entry in insertion order with the key first, the value second and
the map third, and binds the callback receiver to thisArg exactly when
thisArg is given and truthy. -/
theorem claim_C10 (m : MapState) (ta : Option JSVal) :
    (∀ (σ : Type) (f : Option JSVal → JSVal → JSVal → MapState → σ → σ)
      (s : σ), (forEachM m f ta s).2 = m) ∧
    ((forEachM m (fun rx k v mm acc => acc ++ [(rx, k, v, mm)]) ta
        ([] : List (Option JSVal × JSVal × JSVal × MapState))).1 =
      (entriesOf m).map fun kv => (recvOf ta, kv.1, kv.2, m)) ∧
    (∀ t : JSVal, (truthy t = true → recvOf (some t) = some t) ∧
      (truthy t = false → recvOf (some t) = none)) ∧
    recvOf none = none := by
  refine ⟨fun σ f s => rfl, ?_,
    fun t => ⟨fun h => by simp [recvOf, h], fun h => by simp [recvOf, h]⟩,
    rfl⟩
  have h2 := foldl_append_map (entriesOf m)
    (fun kv : JSVal × JSVal => (recvOf ta, kv.1, kv.2, m)) []
  simpa [forEachM] using h2

/-- C7: keys stay unique under set, update and delete; set or update on an
existing key updates the entry in place without changing the position of
the key in the iteration order; set on an absent key appends it at the end;
and the entries iteration is the keys iteration paired with the values
iteration, all in the same insertion order. -/
theorem claim_C7 (m : MapState) (k v : JSVal) (tmo : TimeoutArg) (now : Int)
    (hnd : (keys m).Nodup) :
    (keys (setM m k v tmo now).2).Nodup ∧
    (k ∈ keys m → keys (setM m k v tmo now).2 = keys m) ∧
    (k ∉ keys m → keys (setM m k v tmo now).2 = keys m ++ [k]) ∧
    (∀ it, mapGet m k = some it →
      keys (upd m k v tmo now).2 = keys m ∧
      (mapGet (upd m k v tmo now).2 k).map Item.value = some v) ∧
    (keys (del m k).2).Nodup ∧
    entriesOf m = (keys m).zip (valuesOf m) := by
  obtain ⟨x, hx⟩ := setItem_snd m k (mapGet m k) v tmo now
  refine ⟨?_, ?_, ?_, ?_, ?_, entriesOf_eq_zip m⟩
  · rw [setM, hx]; exact nodup_keys_mapSet m k x hnd
  · intro hmem; rw [setM, hx]; exact keys_mapSet_mem m k x hmem
  · intro hmem; rw [setM, hx]; exact keys_mapSet_not_mem m k x hmem
  · intro it hit
    obtain ⟨y, hy, hyv⟩ := setItem_some_value m k it v tmo now
    have hupd : (upd m k v tmo now).2 =
        (setItem m k (some it) v tmo now).2 := by
      simp [upd, hit]
    constructor
    · rw [hupd, hy]
      exact keys_mapSet_mem m k y (mem_keys_of_get_some m k it hit)
    · rw [hupd, hy, mapGet_mapSet_self]
      simp [hyv]
  · cases hg : mapGet m k with
    | none => simpa [del, hg] using hnd
    | some it =>
      simp only [del, hg]
      exact nodup_keys_mapDelete m k hnd

theorem claim_C7_witness :
    keys (setM [(JSVal.num 0, ⟨JSVal.num 1, none⟩)] (JSVal.num 1)
        (JSVal.num 2) .undef 0).2 =
      keys [(JSVal.num 0, ⟨JSVal.num 1, none⟩)] ++ [JSVal.num 1] :=
  (claim_C7 [(JSVal.num 0, ⟨JSVal.num 1, none⟩)] (JSVal.num 1) (JSVal.num 2)
    .undef 0 (by decide)).2.2.1 (by decide)

/-- C4 counterexample: concat refreshes the timer of an entry already
present in the receiver: its start instant changes from 0 to the call
instant 5, so the timer state of the existing entry is not left untouched. -/
theorem claim_C4_cex :
    mapGet (concatM [(JSVal.num 0, ⟨JSVal.num 1, some ⟨10, 0⟩⟩)]
        [(JSVal.num 0, ⟨JSVal.num 2, none⟩)] false true 5) (JSVal.num 0) =
      some ⟨JSVal.num 1, some ⟨10, 5⟩⟩ ∧
    mapGet [(JSVal.num 0, ⟨JSVal.num 1, some ⟨10, 0⟩⟩)] (JSVal.num 0) =
      some ⟨JSVal.num 1, some ⟨10, 0⟩⟩ ∧
    (⟨10, 5⟩ : Timer) ≠ (⟨10, 0⟩ : Timer) := by decide

/-- C4 amended: concat copies the entries of the other map with ensure
semantics: an entry already present in the receiver keeps its value and its
timer duration and is never overwritten, though the start instant of its timer
may be refreshed to the call instant; and self-concat is a no-op returning
the receiver unchanged. -/
theorem claim_C4 (self other : MapState) (k : JSVal) (it : Item)
    (rt : Bool) (now : Int) (h : mapGet self k = some it) :
    (mapGet (concatM self other false rt now) k = some it ∨
      mapGet (concatM self other false rt now) k =
        some (refreshItem it now)) ∧
    ((refreshItem it now).value = it.value ∧
      (refreshItem it now).timer.map Timer.timeout =
        it.timer.map Timer.timeout) ∧
    (∀ mm : MapState, concatM mm mm true rt now = mm) := by
  refine ⟨?_, ⟨refreshItem_value it now, refreshItem_duration it now⟩,
    fun mm => rfl⟩
  have h2 : concatM self other false rt now =
      copyAll self other true rt now := rfl
  rw [h2]
  exact copyAll_ensure_frame other self k it rt now (Or.inl h)

theorem claim_C4_witness :
    mapGet (concatM [(JSVal.num 0, ⟨JSVal.num 1, some ⟨10, 0⟩⟩)]
        [(JSVal.num 0, ⟨JSVal.num 2, none⟩)] false true 5) (JSVal.num 0) =
      some ⟨JSVal.num 1, some ⟨10, 0⟩⟩ ∨
    mapGet (concatM [(JSVal.num 0, ⟨JSVal.num 1, some ⟨10, 0⟩⟩)]
        [(JSVal.num 0, ⟨JSVal.num 2, none⟩)] false true 5) (JSVal.num 0) =
      some (refreshItem ⟨JSVal.num 1, some ⟨10, 0⟩⟩ 5) :=
  (claim_C4 [(JSVal.num 0, ⟨JSVal.num 1, some ⟨10, 0⟩⟩)]
    [(JSVal.num 0, ⟨JSVal.num 2, none⟩)] (JSVal.num 0)
    ⟨JSVal.num 1, some ⟨10, 0⟩⟩ true 5 (by decide)).1

theorem claim_C10_witness :
    (forEachM [(JSVal.num 0, ⟨JSVal.num 1, none⟩)]
        (fun rx k v mm acc => acc ++ [(rx, k, v, mm)]) (some (JSVal.num 3))
        ([] : List (Option JSVal × JSVal × JSVal × MapState))).1 =
      (entriesOf [(JSVal.num 0, ⟨JSVal.num 1, none⟩)]).map
        (fun kv => (recvOf (some (JSVal.num 3)), kv.1, kv.2,
          [(JSVal.num 0, ⟨JSVal.num 1, none⟩)])) ∧
    recvOf (some (JSVal.num 3)) = some (JSVal.num 3) :=
  ⟨(claim_C10 [(JSVal.num 0, ⟨JSVal.num 1, none⟩)] (some (JSVal.num 3))).2.1,
   ((claim_C10 [(JSVal.num 0, ⟨JSVal.num 1, none⟩)]
      (some (JSVal.num 3))).2.2.1 (JSVal.num 3)).1 (by decide)⟩

end TM
